import Mathlib

/-!
Verification of the quota-aggregation and state-update engine of the
antigravity-claude-proxy repository (CLI quota report and browser dashboard).

The JavaScript source is shallowly embedded:
* quota fractions are modelled as `Option ℚ` (`none` models JS `null`/`undefined`),
* absolute timestamps (`new Date(x).getTime()`, `Date.now()`) as `ℤ` milliseconds,
* JS objects used as string-keyed dictionaries as association lists in
  insertion order (matching `Object.keys` enumeration order),
* the mutable dashboard state as an explicit `AppState` record with the
  `refresh` function as a state-transition function.
-/

/-- A per-model quota record: `remainingFraction` ∈ [0,1] or null, and an
optional absolute reset timestamp. Used both for the CLI's `info` objects and
the dashboard's `limit` objects. -/
structure QuotaInfo where
  remainingFraction : Option ℚ
  resetTime : Option ℤ
deriving DecidableEq

/-- Outcome of fetching one account's quotas in the CLI `main` loop: either the
quota mapping (status 'ok') or an error message (status 'error'). -/
inductive CliOutcome where
  | ok (quotas : List (String × QuotaInfo))
  | err (msg : String)
deriving DecidableEq

/-- One entry of the CLI's `allQuotas` array. -/
structure CliAccount where
  email : String
  outcome : CliOutcome
deriving DecidableEq

/-- Lookup of a key in an association list (JS property access `obj[key]`,
`none` models `undefined`, i.e. the key is absent). -/
def lookupKey (m : String) : List (String × α) → Option α
  | [] => none
  | (k, v) :: rest => if k = m then some v else lookupKey m rest

/-- The CLI's `modelTotals` accumulation step for one non-null fraction:
`modelTotals[modelId].sum += f; modelTotals[modelId].count += 1`, creating
`{ sum: 0, count: 0 }` first when the key is absent (new keys go to the end,
matching JS insertion order). -/
def bumpTotal (d : List (String × ℚ × ℕ)) (m : String) (f : ℚ) :
    List (String × ℚ × ℕ) :=
  match d with
  | [] => [(m, f, 1)]
  | (k, s, c) :: rest =>
    if k = m then (k, s + f, c + 1) :: rest else (k, s, c) :: bumpTotal rest m f

/-- Accumulation of one ok account's quotas into `modelTotals`
(`for (const [modelId, info] of Object.entries(quotas)) if (info.remainingFraction !== null) ...`). -/
def accountTotals (d : List (String × ℚ × ℕ)) (qs : List (String × QuotaInfo)) :
    List (String × ℚ × ℕ) :=
  qs.foldl (fun d p =>
    match p.2.remainingFraction with
    | some f => bumpTotal d p.1 f
    | none => d) d

/-- The CLI's `modelTotals` dictionary after the per-account fetch loop:
accounts whose fetch failed contribute nothing. -/
def modelTotals (accs : List CliAccount) : List (String × ℚ × ℕ) :=
  accs.foldl (fun d a =>
    match a.outcome with
    | .ok qs => accountTotals d qs
    | .err _ => d) []

/-- The CLI's `modelAverages`:
`modelAverages[modelId] = totals.count > 0 ? totals.sum / totals.count : null`. -/
def modelAverages (accs : List CliAccount) : List (String × Option ℚ) :=
  (modelTotals accs).map (fun p => (p.1, if 0 < p.2.2 then some (p.2.1 / p.2.2) else none))

/-- The non-null `remainingFraction` contributions of model `m` inside one ok
account's quota mapping, in iteration order. -/
def quotaContribs (m : String) (qs : List (String × QuotaInfo)) : List ℚ :=
  qs.filterMap (fun p => if p.1 = m then p.2.remainingFraction else none)

/-- All non-null `remainingFraction` contributions of model `m` across the
snapshot, in iteration order (accounts then models). -/
def contribs (m : String) : List CliAccount → List ℚ
  | [] => []
  | a :: rest =>
    (match a.outcome with
     | .ok qs => quotaContribs m qs
     | .err _ => []) ++ contribs m rest

/-- Folding a list of contributions into an optional running (sum, count)
pair; `none` means the model has not been seen yet. -/
def combineT (o : Option (ℚ × ℕ)) (l : List ℚ) : Option (ℚ × ℕ) :=
  l.foldl (fun o f =>
    match o with
    | none => some (f, 1)
    | some (s, c) => some (s + f, c + 1)) o

theorem lookupKey_bumpTotal (d : List (String × ℚ × ℕ)) (m m' : String) (f : ℚ) :
    lookupKey m (bumpTotal d m' f) =
      if m' = m then
        (match lookupKey m d with
         | none => some (f, 1)
         | some (s, c) => some (s + f, c + 1))
      else lookupKey m d := by
  induction d with
  | nil =>
    by_cases h : m' = m
    · simp [bumpTotal, lookupKey, h]
    · simp [bumpTotal, lookupKey, h]
  | cons p rest ih =>
    obtain ⟨k, s, c⟩ := p
    by_cases hk : k = m'
    · simp only [bumpTotal, if_pos hk]
      by_cases hm : k = m
      · have h1 : m' = m := hk ▸ hm
        simp [lookupKey, hm, h1]
      · have h1 : ¬ m' = m := by rw [← hk]; exact hm
        simp [lookupKey, hm, h1]
    · simp only [bumpTotal, if_neg hk]
      by_cases hm : k = m
      · have h1 : ¬ m' = m := by
          intro h
          exact hk (hm.trans h.symm)
        simp [lookupKey, hm, h1]
      · simp [lookupKey, hm, ih]

theorem accountTotals_cons (d : List (String × ℚ × ℕ)) (p : String × QuotaInfo)
    (rest : List (String × QuotaInfo)) :
    accountTotals d (p :: rest) =
      match p.2.remainingFraction with
      | some f => accountTotals (bumpTotal d p.1 f) rest
      | none => accountTotals d rest := by
  simp only [accountTotals, List.foldl_cons]
  cases p.2.remainingFraction <;> rfl

theorem combineT_cons (o : Option (ℚ × ℕ)) (f : ℚ) (l : List ℚ) :
    combineT o (f :: l) =
      combineT
        (match o with
         | none => some (f, 1)
         | some (s, c) => some (s + f, c + 1)) l := rfl

theorem lookupKey_accountTotals (qs : List (String × QuotaInfo)) :
    ∀ (d : List (String × ℚ × ℕ)) (m : String),
      lookupKey m (accountTotals d qs) = combineT (lookupKey m d) (quotaContribs m qs) := by
  induction qs with
  | nil =>
    intro d m
    simp [accountTotals, quotaContribs, combineT]
  | cons p rest ih =>
    intro d m
    rw [accountTotals_cons]
    cases hrf : p.2.remainingFraction with
    | none =>
      rw [ih]
      have h2 : quotaContribs m (p :: rest) = quotaContribs m rest := by
        by_cases hid : p.1 = m <;> simp [quotaContribs, hid, hrf]
      rw [h2]
    | some f =>
      by_cases hid : p.1 = m
      · rw [ih, lookupKey_bumpTotal, if_pos hid]
        have h2 : quotaContribs m (p :: rest) = f :: quotaContribs m rest := by
          simp [quotaContribs, hid, hrf]
        rw [h2, combineT_cons]
      · rw [ih, lookupKey_bumpTotal, if_neg hid]
        have h2 : quotaContribs m (p :: rest) = quotaContribs m rest := by
          simp [quotaContribs, hid]
        rw [h2]

theorem combineT_append (o : Option (ℚ × ℕ)) (l₁ l₂ : List ℚ) :
    combineT o (l₁ ++ l₂) = combineT (combineT o l₁) l₂ := by
  simp [combineT, List.foldl_append]

theorem lookupKey_modelTotals (accs : List CliAccount) (m : String) :
    lookupKey m (modelTotals accs) = combineT none (contribs m accs) := by
  suffices h : ∀ d : List (String × ℚ × ℕ),
      lookupKey m (accs.foldl (fun d a =>
        match a.outcome with
        | .ok qs => accountTotals d qs
        | .err _ => d) d) = combineT (lookupKey m d) (contribs m accs) by
    exact h []
  induction accs with
  | nil =>
    intro d
    simp [contribs, combineT]
  | cons a rest ih =>
    intro d
    simp only [List.foldl_cons, contribs, combineT_append]
    cases h : a.outcome with
    | ok qs =>
      rw [ih (accountTotals d qs), lookupKey_accountTotals]
    | err msg =>
      rw [ih d]
      simp [combineT]

theorem combineT_some (s : ℚ) (c : ℕ) (l : List ℚ) :
    combineT (some (s, c)) l = some (s + l.sum, c + l.length) := by
  induction l generalizing s c with
  | nil => simp [combineT]
  | cons f rest ih =>
    rw [combineT_cons, ih]
    simp only [List.sum_cons, List.length_cons, Option.some.injEq, Prod.mk.injEq]
    exact ⟨by rw [add_assoc], by omega⟩

theorem combineT_none (l : List ℚ) :
    combineT none l = if l = [] then none else some (l.sum, l.length) := by
  cases l with
  | nil => simp [combineT]
  | cons f rest =>
    rw [combineT_cons, combineT_some]
    simp only [List.sum_cons, List.length_cons, if_neg (List.cons_ne_nil f rest),
      Option.some.injEq, Prod.mk.injEq]
    refine ⟨by ring_nf, by omega⟩

theorem lookupKey_map_values (l : List (String × α)) (g : String → α → β) (m : String) :
    lookupKey m (l.map (fun p => (p.1, g p.1 p.2))) = (lookupKey m l).map (g m) := by
  induction l with
  | nil => simp [lookupKey]
  | cons p rest ih =>
    obtain ⟨k, v⟩ := p
    by_cases hk : k = m
    · simp [lookupKey, hk]
    · simp [lookupKey, hk, ih]

theorem bumpTotal_count_pos (d : List (String × ℚ × ℕ)) (m : String) (f : ℚ)
    (hd : d.all (fun p => p.2.2 != 0) = true) :
    (bumpTotal d m f).all (fun p => p.2.2 != 0) = true := by
  induction d with
  | nil => simp [bumpTotal]
  | cons p rest ih =>
    obtain ⟨k, s, c⟩ := p
    simp only [List.all_cons, Bool.and_eq_true] at hd
    by_cases hk : k = m
    · simp only [bumpTotal, if_pos hk, List.all_cons, Bool.and_eq_true]
      refine ⟨by simp, hd.2⟩
    · simp only [bumpTotal, if_neg hk, List.all_cons, Bool.and_eq_true]
      exact ⟨hd.1, ih hd.2⟩

theorem accountTotals_count_pos (qs : List (String × QuotaInfo)) :
    ∀ d : List (String × ℚ × ℕ), d.all (fun p => p.2.2 != 0) = true →
      (accountTotals d qs).all (fun p => p.2.2 != 0) = true := by
  induction qs with
  | nil =>
    intro d hd
    simpa [accountTotals] using hd
  | cons p rest ih =>
    intro d hd
    rw [accountTotals_cons]
    cases hrf : p.2.remainingFraction with
    | none => exact ih d hd
    | some f => exact ih (bumpTotal d p.1 f) (bumpTotal_count_pos d p.1 f hd)

theorem modelTotals_count_pos (accs : List CliAccount) :
    (modelTotals accs).all (fun p => p.2.2 != 0) = true := by
  suffices h : ∀ d : List (String × ℚ × ℕ), d.all (fun p => p.2.2 != 0) = true →
      (accs.foldl (fun d a =>
        match a.outcome with
        | .ok qs => accountTotals d qs
        | .err _ => d) d).all (fun p => p.2.2 != 0) = true by
    exact h [] rfl
  induction accs with
  | nil =>
    intro d hd
    simpa using hd
  | cons a rest ih =>
    intro d hd
    simp only [List.foldl_cons]
    cases h : a.outcome with
    | ok qs => exact ih (accountTotals d qs) (accountTotals_count_pos qs d hd)
    | err msg => exact ih d hd

/-- Claim C1 (amended): `modelAverages` maps exactly the model ids with at
least one non-null contribution; such a model maps to the arithmetic mean of
its non-null contributions (nulls skipped from both sum and count). A model
whose contributions are all null is absent from the map (its key is not
present at all), and every stored count is positive, so no division by zero
occurs. -/
theorem modelAverages_characterization (accs : List CliAccount) (m : String) :
    lookupKey m (modelAverages accs) =
      (if contribs m accs = [] then none
       else some (some ((contribs m accs).sum / (contribs m accs).length)))
    ∧ (modelTotals accs).all (fun p => p.2.2 != 0) = true := by
  refine ⟨?_, modelTotals_count_pos accs⟩
  unfold modelAverages
  rw [lookupKey_map_values (modelTotals accs)
      (fun _ q => if 0 < q.2 then some (q.1 / q.2) else none) m]
  rw [lookupKey_modelTotals, combineT_none]
  by_cases h : contribs m accs = []
  · simp [h]
  · simp only [if_neg h, Option.map_some]
    have hlen : 0 < (contribs m accs).length := List.length_pos.mpr h
    simp [hlen]

/-- The account used in the counterexample to claim C1: its single model `m1`
is offered with a null `remainingFraction`. -/
def c1CexAccount : CliAccount :=
  { email := "solo@example.com",
    outcome := .ok [("m1", { remainingFraction := none, resetTime := none })] }

/-- Counterexample to claim C1 as stated: model `m1` appears in an account
(with a null fraction only), yet `modelAverages` is the empty map — the key
`m1` is absent, rather than present with value null as the claim asserts. -/
theorem modelAverages_null_key_absent :
    c1CexAccount.outcome = .ok [("m1", { remainingFraction := none, resetTime := none })]
    ∧ modelAverages [c1CexAccount] = []
    ∧ lookupKey "m1" (modelAverages [c1CexAccount]) = none := by
  refine ⟨rfl, ?_, ?_⟩ <;> rfl

/-- Color tier of the terminal report's `formatPercent`: `na` is the gray
"N/A" branch, `high` the green branch, `mid` the yellow branch, `low` the red
branch. -/
inductive Tier where
  | na
  | high
  | mid
  | low
deriving DecidableEq

/-- JS `Math.round` on a rational: round half away from zero is
`⌊x + 1/2⌋` for the non-negative fractions involved here. -/
def jsRound (q : ℚ) : ℤ := ⌊q + 1/2⌋

/-- ANSI color prefix attached to each tier in `formatPercent`. -/
def tierColor : Tier → String
  | .na => "\x1b[90m"
  | .high => "\x1b[32m"
  | .mid => "\x1b[33m"
  | .low => "\x1b[31m"

/-- The CLI's `formatPercent`: null ↦ gray "N/A", otherwise
`pct = Math.round(fraction * 100)`, green when `pct >= 50`, yellow when
`pct >= 20`, red otherwise. -/
def formatPercent (f : Option ℚ) : String :=
  match f with
  | none => "\x1b[90mN/A\x1b[0m"
  | some q =>
    if 50 ≤ jsRound (q * 100) then "\x1b[32m" ++ toString (jsRound (q * 100)) ++ "%\x1b[0m"
    else if 20 ≤ jsRound (q * 100) then "\x1b[33m" ++ toString (jsRound (q * 100)) ++ "%\x1b[0m"
    else "\x1b[31m" ++ toString (jsRound (q * 100)) ++ "%\x1b[0m"

/-- The severity classification performed inside `formatPercent`, with the
branch structure of the source (thresholds compared against the rounded
percentage). -/
def percentTier (f : Option ℚ) : Tier :=
  match f with
  | none => Tier.na
  | some q =>
    if 50 ≤ jsRound (q * 100) then Tier.high
    else if 20 ≤ jsRound (q * 100) then Tier.mid
    else Tier.low

/-- The classification claim C6 describes: thresholds compared against the
raw fraction (`fraction ≥ 0.50` high, `fraction ≥ 0.20` mid, else low). -/
def claimedPercentTier (f : Option ℚ) : Tier :=
  match f with
  | none => Tier.na
  | some q =>
    if 1/2 ≤ q then Tier.high
    else if 1/5 ≤ q then Tier.mid
    else Tier.low

theorem jsRound_le_iff (z : ℤ) (q : ℚ) : z ≤ jsRound q ↔ (z : ℚ) ≤ q + 1/2 := by
  rw [jsRound, Int.le_floor]

/-- Claim C6 (amended): null yields "n/a"; the tier of a non-null fraction is
determined by the rounded percentage `Math.round(fraction * 100)`, which makes
the effective fraction thresholds 0.495 (high) and 0.195 (mid): a fraction
≥ 99/200 is high, a fraction ≥ 39/200 (and < 99/200) is mid, every other
fraction is low; `formatPercent` renders exactly the tier's color. -/
theorem percentTier_thresholds (q : ℚ) :
    percentTier none = Tier.na
    ∧ percentTier (some q) =
        (if 99/200 ≤ q then Tier.high else if 39/200 ≤ q then Tier.mid else Tier.low)
    ∧ formatPercent none = tierColor Tier.na ++ "N/A" ++ "\x1b[0m"
    ∧ formatPercent (some q) =
        tierColor (percentTier (some q)) ++ toString (jsRound (q * 100)) ++ "%\x1b[0m" := by
  have h50 : (50 ≤ jsRound (q * 100)) ↔ (99/200 ≤ q) := by
    rw [jsRound_le_iff]
    push_cast
    constructor <;> intro h <;> linarith
  have h20 : (20 ≤ jsRound (q * 100)) ↔ (39/200 ≤ q) := by
    rw [jsRound_le_iff]
    push_cast
    constructor <;> intro h <;> linarith
  refine ⟨rfl, ?_, rfl, ?_⟩
  · simp only [percentTier]
    by_cases h1 : (99/200 : ℚ) ≤ q
    · rw [if_pos (h50.mpr h1), if_pos h1]
    · rw [if_neg (fun hc => h1 (h50.mp hc)), if_neg h1]
      by_cases h2 : (39/200 : ℚ) ≤ q
      · rw [if_pos (h20.mpr h2), if_pos h2]
      · rw [if_neg (fun hc => h2 (h20.mp hc)), if_neg h2]
  · simp only [formatPercent, percentTier]
    split_ifs <;> rfl

/-- Counterexample to claim C6 as stated: the fraction 99/200 = 0.495 lies in
[0,1], is strictly below 0.50 and at least 0.20, so the claim assigns it the
mid tier; the code rounds it to 50% and assigns the high tier. -/
theorem percentTier_boundary_cex :
    percentTier (some (99/200)) = Tier.high
    ∧ claimedPercentTier (some (99/200)) = Tier.mid
    ∧ (0 : ℚ) ≤ 99/200 ∧ (99/200 : ℚ) < 1/2 ∧ (1/5 : ℚ) ≤ 99/200 := by
  have hA : ¬ (1/2 : ℚ) ≤ 99/200 := by norm_num
  have hB : (1/5 : ℚ) ≤ 99/200 := by norm_num
  have h : jsRound ((99/200 : ℚ) * 100) = 50 := by
    rw [jsRound, show ((99:ℚ)/200 * 100 + 1/2 : ℚ) = ((50:ℤ) : ℚ) by norm_num,
      Int.floor_intCast]
  refine ⟨?_, ?_, by norm_num, by norm_num, by norm_num⟩
  · simp [percentTier, h]
  · simp only [claimedPercentTier]
    rw [if_neg hA, if_pos hB]

/-- Seconds shown by `Utils.formatDuration`: `Math.floor(ms / 1000)` (reached
only for positive input). -/
def fdSeconds (n : ℕ) : ℕ := n / 1000

/-- Minutes local of `Utils.formatDuration`: `Math.floor(seconds / 60)`. -/
def fdMinutes (n : ℕ) : ℕ := fdSeconds n / 60

/-- Hours local of `Utils.formatDuration`: `Math.floor(minutes / 60)`. -/
def fdHours (n : ℕ) : ℕ := fdMinutes n / 60

/-- Days local of `Utils.formatDuration`: `Math.floor(hours / 24)`. -/
def fdDays (n : ℕ) : ℕ := fdHours n / 24

/-- The dashboard's `Utils.formatDuration`: "now" for `ms <= 0`, otherwise the
first applicable of days+hours, hours+minutes, minutes+seconds, seconds. -/
def formatDuration (ms : ℤ) : String :=
  if ms ≤ 0 then "now"
  else if 0 < fdDays ms.toNat then
    toString (fdDays ms.toNat) ++ "d " ++ toString (fdHours ms.toNat % 24) ++ "h"
  else if 0 < fdHours ms.toNat then
    toString (fdHours ms.toNat) ++ "h " ++ toString (fdMinutes ms.toNat % 60) ++ "m"
  else if 0 < fdMinutes ms.toNat then
    toString (fdMinutes ms.toNat) ++ "m " ++ toString (fdSeconds ms.toNat % 60) ++ "s"
  else toString (fdSeconds ms.toNat) ++ "s"

/-- The duration format claim C7 describes, written with direct unit
divisions: the largest applicable unit breakdown of `n` milliseconds —
days+hours when at least one day, else hours+minutes when at least one hour,
else minutes+seconds when at least one minute, else whole seconds. -/
def durationBreakdown (n : ℕ) : String :=
  if 86400000 ≤ n then toString (n / 86400000) ++ "d " ++ toString (n / 3600000 % 24) ++ "h"
  else if 3600000 ≤ n then toString (n / 3600000) ++ "h " ++ toString (n / 60000 % 60) ++ "m"
  else if 60000 ≤ n then toString (n / 60000) ++ "m " ++ toString (n / 1000 % 60) ++ "s"
  else toString (n / 1000) ++ "s"

/-- Claim C7: `formatDuration` returns "now" for every `ms ≤ 0`, and for
positive `ms` the largest applicable unit breakdown; in particular
`formatDuration 0 = "now"`, `formatDuration (-500) = "now"`,
`formatDuration 90000 = "1m 30s"` and `formatDuration 3900000 = "1h 5m"`. -/
theorem formatDuration_spec (ms : ℤ) :
    formatDuration ms = (if ms ≤ 0 then "now" else durationBreakdown ms.toNat)
    ∧ formatDuration 0 = "now"
    ∧ formatDuration (-500) = "now"
    ∧ formatDuration 90000 = "1m 30s"
    ∧ formatDuration 3900000 = "1h 5m" := by
  refine ⟨?_, by decide, by decide, by decide, by decide⟩
  by_cases h : ms ≤ 0
  · simp [formatDuration, h]
  · simp only [formatDuration, durationBreakdown, if_neg h, fdDays, fdHours, fdMinutes,
      fdSeconds]
    have d1 : ms.toNat / 1000 / 60 = ms.toNat / 60000 := by omega
    have d2 : ms.toNat / 1000 / 60 / 60 = ms.toNat / 3600000 := by omega
    have d3 : ms.toNat / 1000 / 60 / 60 / 24 = ms.toNat / 86400000 := by omega
    rw [d3, d2, d1]
    by_cases h1 : 86400000 ≤ ms.toNat
    · rw [if_pos (show 0 < ms.toNat / 86400000 by omega), if_pos h1]
    · rw [if_neg (show ¬ 0 < ms.toNat / 86400000 by omega), if_neg h1]
      by_cases h2 : 3600000 ≤ ms.toNat
      · rw [if_pos (show 0 < ms.toNat / 3600000 by omega), if_pos h2]
      · rw [if_neg (show ¬ 0 < ms.toNat / 3600000 by omega), if_neg h2]
        by_cases h3 : 60000 ≤ ms.toNat
        · rw [if_pos (show 0 < ms.toNat / 60000 by omega), if_pos h3]
        · rw [if_neg (show ¬ 0 < ms.toNat / 60000 by omega), if_neg h3]

/-- Number of occurrences of a character in a character list (JS strings are
modelled as their character sequences). -/
def occCount (sep : Char) : List Char → ℕ
  | [] => 0
  | c :: cs => (if c = sep then 1 else 0) + occCount sep cs

/-- JS `String.prototype.split` with a single-character separator: splits a
character sequence at every occurrence of `sep`; the empty string splits into
`[[]]`. -/
def splitOnChar (sep : Char) : List Char → List (List Char)
  | [] => [[]]
  | c :: cs =>
    match splitOnChar sep cs with
    | [] => [[]]
    | p :: ps => if c = sep then [] :: p :: ps else (c :: p) :: ps

/-- The dashboard's `Utils.maskEmail`: empty input yields the empty string; an
input that does not split on '@' into exactly two parts is returned unchanged;
otherwise the local part is truncated (first 4 characters if longer than 4,
else first 2) followed by "***", '@' and the full domain. -/
def maskEmail (email : List Char) : List Char :=
  if email = [] then []
  else
    match splitOnChar '@' email with
    | [loc, dom] =>
      (if 4 < loc.length then loc.take 4 ++ ['*', '*', '*']
       else loc.take 2 ++ ['*', '*', '*']) ++ '@' :: dom
    | _ => email

theorem splitOnChar_ne_nil (sep : Char) (l : List Char) : splitOnChar sep l ≠ [] := by
  cases l with
  | nil => simp [splitOnChar]
  | cons c cs =>
    simp only [splitOnChar]
    cases splitOnChar sep cs with
    | nil => simp
    | cons p ps =>
      by_cases h : c = sep <;> simp [h]

theorem splitOnChar_length (sep : Char) (l : List Char) :
    (splitOnChar sep l).length = occCount sep l + 1 := by
  induction l with
  | nil => simp [splitOnChar, occCount]
  | cons c cs ih =>
    simp only [splitOnChar, occCount]
    cases hsp : splitOnChar sep cs with
    | nil => exact absurd hsp (splitOnChar_ne_nil sep cs)
    | cons p ps =>
      rw [hsp] at ih
      by_cases h : c = sep
      · simp only [if_pos h, List.length_cons] at ih ⊢
        omega
      · simp only [if_neg h, List.length_cons] at ih ⊢
        omega

theorem splitOnChar_no_sep (sep : Char) (l : List Char) (h : occCount sep l = 0) :
    splitOnChar sep l = [l] := by
  induction l with
  | nil => simp [splitOnChar]
  | cons c cs ih =>
    simp only [occCount] at h
    have hc : ¬ c = sep := by
      intro hcs
      simp [hcs] at h
    have hcs0 : occCount sep cs = 0 := by
      simp [hc] at h
      exact h
    simp [splitOnChar, ih hcs0, hc]

theorem splitOnChar_append (sep : Char) (a b : List Char) (ha : occCount sep a = 0) :
    splitOnChar sep (a ++ sep :: b) = a :: splitOnChar sep b := by
  induction a with
  | nil =>
    simp only [List.nil_append, splitOnChar]
    cases hsp : splitOnChar sep b with
    | nil => exact absurd hsp (splitOnChar_ne_nil sep b)
    | cons p ps => simp
  | cons c cs ih =>
    simp only [occCount] at ha
    have hc : ¬ c = sep := by
      intro hcs
      simp [hcs] at ha
    have hcs0 : occCount sep cs = 0 := by
      simp [hc] at ha
      exact ha
    simp only [List.cons_append, splitOnChar, List.append_eq]
    rw [ih hcs0]
    simp [hc]

theorem occCount_one_decomp (sep : Char) (l : List Char) (h : occCount sep l = 1) :
    ∃ a b, l = a ++ sep :: b ∧ occCount sep a = 0 ∧ occCount sep b = 0 := by
  induction l with
  | nil => simp [occCount] at h
  | cons c cs ih =>
    simp only [occCount] at h
    by_cases hc : c = sep
    · subst hc
      have hcs0 : occCount c cs = 0 := by
        simp at h
        omega
      exact ⟨[], cs, by simp, by simp [occCount], hcs0⟩
    · have hcs1 : occCount sep cs = 1 := by
        simp [hc] at h
        exact h
      obtain ⟨a, b, hl, ha, hb⟩ := ih hcs1
      exact ⟨c :: a, b, by simp [hl], by simp [occCount, hc, ha], hb⟩

/-- Claim C10: `maskEmail` is total on character sequences: the empty input
maps to the empty output; an input whose '@'-split does not have exactly two
parts (equivalently, whose '@' count is not exactly 1) is returned unchanged;
and a well-formed email `loc ++ '@' :: dom` (no '@' inside either part) is
masked to the first 4 characters of the local part when it has more than 4,
else the first 2, followed by "***", '@' and the full domain. -/
theorem maskEmail_total_spec (email : List Char) :
    (email = [] → maskEmail email = [])
    ∧ (email ≠ [] → occCount '@' email ≠ 1 → maskEmail email = email)
    ∧ (∀ loc dom, email = loc ++ '@' :: dom →
        occCount '@' loc = 0 → occCount '@' dom = 0 →
        maskEmail email =
          (if 4 < loc.length then loc.take 4 else loc.take 2)
            ++ '*' :: '*' :: '*' :: '@' :: dom) := by
  refine ⟨fun h => by simp [maskEmail, h], ?_, ?_⟩
  · intro hne hcount
    have hlen : (splitOnChar '@' email).length ≠ 2 := by
      rw [splitOnChar_length]
      omega
    rcases hsp : splitOnChar '@' email with _ | ⟨x, _ | ⟨y, _ | ⟨z, w⟩⟩⟩
    · exact absurd hsp (splitOnChar_ne_nil _ email)
    · simp [maskEmail, hne, hsp]
    · rw [hsp] at hlen
      simp at hlen
    · simp [maskEmail, hne, hsp]
  · intro loc dom heq hloc hdom
    have hne : email ≠ [] := by
      rw [heq]
      cases loc <;> simp
    have hsp : splitOnChar '@' email = [loc, dom] := by
      rw [heq, splitOnChar_append _ _ _ hloc, splitOnChar_no_sep _ _ hdom]
    simp only [maskEmail, if_neg hne, hsp]
    by_cases h4 : 4 < loc.length
    · simp [h4]
    · simp [h4]

/-- Witness for claim C10: the well-formed email "abcde@x.co" (local part of
5 characters) is masked to "abcd***@x.co". -/
theorem maskEmail_witness :
    maskEmail ['a', 'b', 'c', 'd', 'e', '@', 'x', '.', 'c', 'o'] =
      ['a', 'b', 'c', 'd', '*', '*', '*', '@', 'x', '.', 'c', 'o'] := by
  have h := (maskEmail_total_spec ['a', 'b', 'c', 'd', 'e', '@', 'x', '.', 'c', 'o']).2.2
    ['a', 'b', 'c', 'd', 'e'] ['x', '.', 'c', 'o'] rfl (by decide) (by decide)
  rw [h]
  decide

/-- Whether `pat` is a prefix of the second list (helper for the JS
`String.prototype.indexOf` substring test). -/
def leadsWith : List Char → List Char → Bool
  | [], _ => true
  | _ :: _, [] => false
  | p :: ps, c :: cs => p == c && leadsWith ps cs

/-- JS `s.indexOf(pat) !== -1`: `pat` occurs somewhere in `s`. -/
def hasSub (pat : List Char) : List Char → Bool
  | [] => pat.isEmpty
  | c :: cs => leadsWith pat (c :: cs) || hasSub pat cs

/-- The dashboard's `Utils.getModelFamily`: falsy model id ↦ "unknown",
a model id containing "claude" ↦ "claude", else containing "gemini" ↦
"gemini", else "unknown". -/
def getModelFamily (m : String) : String :=
  if m = "" then "unknown"
  else if hasSub "claude".data m.data then "claude"
  else if hasSub "gemini".data m.data then "gemini"
  else "unknown"

/-- One account of the limits snapshot (`/account-limits?format=json`):
`limits` maps model ids to possibly-null limit objects; the mapping itself can
be absent. -/
structure DashAccount where
  email : String
  status : String
  limits : Option (List (String × Option QuotaInfo))
deriving DecidableEq

/-- The account eligibility test of `Render.globalQuota`:
`acc.status === 'ok' || acc.status === 'rate-limited'` (the code skips the
account otherwise). -/
def usable (a : DashAccount) : Bool :=
  a.status == "ok" || a.status == "rate-limited"

/-- The null coercion of `Render.globalQuota`: a null or undefined
`remainingFraction` is treated as 0 (exhausted). -/
def coerceFraction (o : Option ℚ) : ℚ := o.getD 0

/-- One per-email accumulator of `claudePerAccount` / `geminiPerAccount`:
`{ sum, count, soonestReset }`. -/
structure Bucket where
  sum : ℚ
  count : ℕ
  soonestReset : Option ℤ
deriving DecidableEq

/-- The fresh accumulator `{ sum: 0, count: 0, soonestReset: null }`. -/
def initBucket : Bucket := { sum := 0, count := 0, soonestReset := none }

/-- Adding one family model to an accumulator: `sum += fraction; count += 1`,
and `soonestReset` is lowered to the model's reset time when that time is set
and earlier than (or replacing) the stored one. -/
def bucketAdd (b : Bucket) (f : ℚ) (rt : Option ℤ) : Bucket :=
  { sum := b.sum + f
    count := b.count + 1
    soonestReset :=
      match rt, b.soonestReset with
      | none, s => s
      | some t, none => some t
      | some t, some s => if t < s then some t else some s }

/-- Update of the email-keyed dictionary: create the accumulator if the email
is absent (insertion at the end, JS key insertion order), then apply
`bucketAdd` to it. -/
def bumpDict (d : List (String × Bucket)) (e : String) (f : ℚ) (rt : Option ℤ) :
    List (String × Bucket) :=
  match d with
  | [] => [(e, bucketAdd initBucket f rt)]
  | (k, b) :: rest =>
    if k = e then (k, bucketAdd b f rt) :: rest else (k, b) :: bumpDict rest e f rt

/-- The (coerced fraction, reset time) contributions of the models of family
`fam` inside one account's limits mapping, in iteration order; null limit
objects are skipped (`if (!limit) return`). -/
def famContribs (fam : String) (ls : List (String × Option QuotaInfo)) :
    List (ℚ × Option ℤ) :=
  ls.filterMap (fun p =>
    match p.2 with
    | none => none
    | some lim =>
      if getModelFamily p.1 = fam then
        some (coerceFraction lim.remainingFraction, lim.resetTime)
      else none)

/-- The inner `Object.keys(acc.limits).forEach` loop of `Render.globalQuota`
restricted to family `fam`: every family model of the account bumps the
account's bucket in the dictionary. -/
def accountFamilyFold (fam e : String) (d : List (String × Bucket))
    (ls : List (String × Option QuotaInfo)) : List (String × Bucket) :=
  ls.foldl (fun d p =>
    match p.2 with
    | none => d
    | some lim =>
      if getModelFamily p.1 = fam then
        bumpDict d e (coerceFraction lim.remainingFraction) lim.resetTime
      else d) d

/-- One iteration of the outer `accounts.forEach` loop of
`Render.globalQuota`: unusable accounts and accounts without a limits mapping
are skipped (`if (acc.status !== 'ok' && ...) return; if (!acc.limits) return;`),
otherwise the account's family models are folded into the dictionary. -/
def dictStep (fam : String) (d : List (String × Bucket)) (a : DashAccount) :
    List (String × Bucket) :=
  if usable a then
    match a.limits with
    | none => d
    | some ls => accountFamilyFold fam a.email d ls
  else d

/-- The `claudePerAccount` / `geminiPerAccount` dictionary (for
`fam = "claude"` / `"gemini"`) after the outer `accounts.forEach` loop. -/
def familyDict (fam : String) (accs : List DashAccount) : List (String × Bucket) :=
  accs.foldl (dictStep fam) []

/-- The family gauge of `Render.globalQuota`: `none` when no account
contributed (the code then renders "N/A"); otherwise each dictionary entry
contributes its per-account average `sum / count`, and the gauge is the
unweighted mean of those per-account averages. -/
def familyGauge (fam : String) (accs : List DashAccount) : Option ℚ :=
  if (familyDict fam accs).isEmpty then none
  else some
    (((familyDict fam accs).foldl (fun t p => t + p.2.sum / (p.2.count : ℚ)) 0)
      / ((familyDict fam accs).length : ℚ))

/-- The family's soonest reset (`claudeSoonestReset` / `geminiSoonestReset`):
the minimum of the per-account `soonestReset` values that are set. -/
def familySoonestReset (fam : String) (accs : List DashAccount) : Option ℤ :=
  (familyDict fam accs).foldl (fun s p =>
    match p.2.soonestReset, s with
    | none, u => u
    | some t, none => some t
    | some t, some u => if t < u then some t else some u) none

/-- Folding a contributions list into a bucket from `initBucket`. -/
def bucketOfList (cs : List (ℚ × Option ℤ)) : Bucket :=
  cs.foldl (fun b c => bucketAdd b c.1 c.2) initBucket

/-- Specification-level form of one account's dictionary entry: a usable
account with a limits mapping and at least one family model yields the bucket
of its family contributions, keyed by its email; every other account yields
nothing. -/
def accountBucket (fam : String) (a : DashAccount) : Option (String × Bucket) :=
  if usable a then
    match a.limits with
    | none => none
    | some ls =>
      if (famContribs fam ls).isEmpty then none
      else some (a.email, bucketOfList (famContribs fam ls))
  else none

/-- Specification-level form of the whole dictionary: one entry per
contributing account, in account order. -/
def dictSpec (fam : String) (accs : List DashAccount) : List (String × Bucket) :=
  accs.filterMap (accountBucket fam)

/-- One account's family scalar as claim C3 words it: each family model
contributes its fraction with null treated as 0, and the scalar is the mean
of those per-model values; `none` when the account has no family models. -/
def accountScalar (fam : String) (ls : List (String × Option QuotaInfo)) : Option ℚ :=
  if (famContribs fam ls).isEmpty then none
  else some (((famContribs fam ls).map Prod.fst).sum / ((famContribs fam ls).length : ℚ))

/-- The family gauge as claim C3 words it: the unweighted mean of the
per-account scalars of the usable accounts that have family models. -/
def familyGaugeSpec (fam : String) (accs : List DashAccount) : Option ℚ :=
  if (accs.filterMap (fun a =>
      if usable a then
        match a.limits with
        | none => none
        | some ls => accountScalar fam ls
      else none)).isEmpty then none
  else some
    ((accs.filterMap (fun a =>
        if usable a then
          match a.limits with
          | none => none
          | some ls => accountScalar fam ls
        else none)).sum
      / (accs.filterMap (fun a =>
          if usable a then
            match a.limits with
            | none => none
            | some ls => accountScalar fam ls
          else none)).length : ℚ)

theorem bumpDict_absent (d : List (String × Bucket)) (e : String) (f : ℚ) (rt : Option ℤ)
    (h : e ∉ d.map Prod.fst) :
    bumpDict d e f rt = d ++ [(e, bucketAdd initBucket f rt)] := by
  induction d with
  | nil => simp [bumpDict]
  | cons p rest ih =>
    obtain ⟨k, b⟩ := p
    simp only [List.map_cons, List.mem_cons] at h
    push_neg at h
    have hk : ¬ k = e := fun hh => h.1 hh.symm
    simp [bumpDict, hk, ih h.2]

theorem bumpDict_last (d : List (String × Bucket)) (e : String) (b : Bucket) (f : ℚ)
    (rt : Option ℤ) (h : e ∉ d.map Prod.fst) :
    bumpDict (d ++ [(e, b)]) e f rt = d ++ [(e, bucketAdd b f rt)] := by
  induction d with
  | nil => simp [bumpDict]
  | cons p rest ih =>
    obtain ⟨k, b'⟩ := p
    simp only [List.map_cons, List.mem_cons] at h
    push_neg at h
    have hk : ¬ k = e := fun hh => h.1 hh.symm
    simp [bumpDict, hk, ih h.2]

theorem accountFamilyFold_cons (fam e : String) (d : List (String × Bucket))
    (p : String × Option QuotaInfo) (rest : List (String × Option QuotaInfo)) :
    accountFamilyFold fam e d (p :: rest) =
      match p.2 with
      | none => accountFamilyFold fam e d rest
      | some lim =>
        if getModelFamily p.1 = fam then
          accountFamilyFold fam e
            (bumpDict d e (coerceFraction lim.remainingFraction) lim.resetTime) rest
        else accountFamilyFold fam e d rest := by
  simp only [accountFamilyFold, List.foldl_cons]
  cases p.2 with
  | none => rfl
  | some lim => by_cases h : getModelFamily p.1 = fam <;> simp [h]

theorem famContribs_cons (fam : String) (p : String × Option QuotaInfo)
    (rest : List (String × Option QuotaInfo)) :
    famContribs fam (p :: rest) =
      match p.2 with
      | none => famContribs fam rest
      | some lim =>
        if getModelFamily p.1 = fam then
          (coerceFraction lim.remainingFraction, lim.resetTime) :: famContribs fam rest
        else famContribs fam rest := by
  simp only [famContribs, List.filterMap_cons]
  cases p.2 with
  | none => rfl
  | some lim => by_cases h : getModelFamily p.1 = fam <;> simp [h]

theorem accountFamilyFold_eq (fam e : String) (ls : List (String × Option QuotaInfo)) :
    ∀ d, accountFamilyFold fam e d ls =
      (famContribs fam ls).foldl (fun d c => bumpDict d e c.1 c.2) d := by
  induction ls with
  | nil =>
    intro d
    simp [accountFamilyFold, famContribs]
  | cons p rest ih =>
    intro d
    rw [accountFamilyFold_cons, famContribs_cons]
    cases hp : p.2 with
    | none => exact ih d
    | some lim =>
      by_cases h : getModelFamily p.1 = fam
      · simp only [if_pos h, List.foldl_cons]
        exact ih _
      · simp only [if_neg h]
        exact ih d

theorem foldl_bumpDict_last (e : String) (cs : List (ℚ × Option ℤ)) :
    ∀ (d : List (String × Bucket)) (b : Bucket), e ∉ d.map Prod.fst →
      cs.foldl (fun d c => bumpDict d e c.1 c.2) (d ++ [(e, b)]) =
        d ++ [(e, cs.foldl (fun b c => bucketAdd b c.1 c.2) b)] := by
  induction cs with
  | nil =>
    intro d b _
    simp
  | cons c rest ih =>
    intro d b h
    simp only [List.foldl_cons]
    rw [bumpDict_last d e b c.1 c.2 h]
    exact ih d (bucketAdd b c.1 c.2) h

theorem accountFamilyFold_absent (fam e : String) (ls : List (String × Option QuotaInfo))
    (d : List (String × Bucket)) (h : e ∉ d.map Prod.fst) :
    accountFamilyFold fam e d ls =
      if (famContribs fam ls).isEmpty then d
      else d ++ [(e, bucketOfList (famContribs fam ls))] := by
  rw [accountFamilyFold_eq]
  cases hcs : famContribs fam ls with
  | nil => simp
  | cons c rest =>
    simp only [List.foldl_cons, List.isEmpty_cons]
    rw [bumpDict_absent d e c.1 c.2 h, foldl_bumpDict_last e rest d _ h]
    simp [bucketOfList]

theorem dictStep_absent (fam : String) (d : List (String × Bucket)) (a : DashAccount)
    (hae : a.email ∉ d.map Prod.fst) :
    dictStep fam d a =
      match accountBucket fam a with
      | none => d
      | some x => d ++ [x] := by
  cases hu : usable a with
  | false => simp [dictStep, accountBucket, hu]
  | true =>
    cases hl : a.limits with
    | none => simp [dictStep, accountBucket, hu, hl]
    | some ls =>
      simp only [dictStep, accountBucket, hu, if_true, hl]
      rw [accountFamilyFold_absent fam a.email ls d hae]
      by_cases hemp : (famContribs fam ls).isEmpty
      · simp [hemp]
      · simp [hemp]

theorem familyDict_eq_dictSpec (fam : String) (accs : List DashAccount)
    (hnd : (accs.map DashAccount.email).Nodup) :
    familyDict fam accs = dictSpec fam accs := by
  suffices h : ∀ (accs : List DashAccount) (d : List (String × Bucket)),
      (∀ a ∈ accs, a.email ∉ d.map Prod.fst) → (accs.map DashAccount.email).Nodup →
      accs.foldl (dictStep fam) d = d ++ dictSpec fam accs by
    simpa [familyDict] using h accs [] (by simp) hnd
  intro accs
  induction accs with
  | nil =>
    intro d _ _
    simp [dictSpec]
  | cons a rest ih =>
    intro d hd hnd
    simp only [List.map_cons, List.nodup_cons] at hnd
    have hae : a.email ∉ d.map Prod.fst := hd a (List.mem_cons_self a rest)
    have hrest : ∀ x ∈ rest, x.email ∉ d.map Prod.fst :=
      fun x hx => hd x (List.mem_cons_of_mem a hx)
    have hspec : dictSpec fam (a :: rest) =
        match accountBucket fam a with
        | none => dictSpec fam rest
        | some x => x :: dictSpec fam rest := by
      simp only [dictSpec, List.filterMap_cons]
      cases accountBucket fam a <;> rfl
    simp only [List.foldl_cons]
    rw [dictStep_absent fam d a hae, hspec]
    cases hb : accountBucket fam a with
    | none => exact ih d hrest hnd.2
    | some x =>
      have hx : x.1 = a.email := by
        cases hu : usable a with
        | false => simp [accountBucket, hu] at hb
        | true =>
          cases hl : a.limits with
          | none => simp [accountBucket, hu, hl] at hb
          | some ls =>
            by_cases hemp : (famContribs fam ls).isEmpty
            · simp [accountBucket, hu, hl, hemp] at hb
            · simp only [accountBucket, hu, if_true, hl, hemp, if_false,
                Bool.false_eq_true] at hb
              rw [← Option.some.inj hb]
      have hrest2 : ∀ y ∈ rest, y.email ∉ (d ++ [x]).map Prod.fst := by
        intro y hy
        simp only [List.map_append, List.mem_append, List.map_cons, List.map_nil,
          List.mem_cons, List.not_mem_nil]
        push_neg
        refine ⟨fun hc => hrest y hy hc, ?_, fun hc => hc⟩
        intro hc
        rw [hx] at hc
        exact hnd.1 (hc ▸ List.mem_map_of_mem DashAccount.email hy)
      rw [ih (d ++ [x]) hrest2 hnd.2]
      simp

theorem bucketFold_sum_count (cs : List (ℚ × Option ℤ)) :
    ∀ b : Bucket,
      (cs.foldl (fun b c => bucketAdd b c.1 c.2) b).sum = b.sum + (cs.map Prod.fst).sum
      ∧ (cs.foldl (fun b c => bucketAdd b c.1 c.2) b).count = b.count + cs.length := by
  induction cs with
  | nil =>
    intro b
    simp
  | cons c rest ih =>
    intro b
    simp only [List.foldl_cons, List.map_cons, List.sum_cons, List.length_cons]
    obtain ⟨h1, h2⟩ := ih (bucketAdd b c.1 c.2)
    refine ⟨?_, ?_⟩
    · rw [h1]
      simp only [bucketAdd]
      ring
    · rw [h2]
      simp only [bucketAdd]
      omega

theorem foldl_sum_div (d : List (String × Bucket)) :
    ∀ t : ℚ, d.foldl (fun t p => t + p.2.sum / (p.2.count : ℚ)) t =
      t + (d.map (fun p => p.2.sum / (p.2.count : ℚ))).sum := by
  induction d with
  | nil =>
    intro t
    simp
  | cons p rest ih =>
    intro t
    simp only [List.foldl_cons, List.map_cons, List.sum_cons]
    rw [ih]
    ring

theorem dictSpec_map_scalar (fam : String) (accs : List DashAccount) :
    (dictSpec fam accs).map (fun p => p.2.sum / (p.2.count : ℚ)) =
      accs.filterMap (fun a =>
        if usable a then
          match a.limits with
          | none => none
          | some ls => accountScalar fam ls
        else none) := by
  induction accs with
  | nil => rfl
  | cons a rest ih =>
    simp only [dictSpec, List.filterMap_cons] at ih ⊢
    cases hu : usable a with
    | false => simp [accountBucket, hu, ih]
    | true =>
      cases hl : a.limits with
      | none => simp [accountBucket, hu, hl, ih]
      | some ls =>
        by_cases hemp : (famContribs fam ls).isEmpty
        · simp [accountBucket, accountScalar, hu, hl, hemp, ih]
        · have hsc := bucketFold_sum_count (famContribs fam ls) initBucket
          simp only [accountBucket, accountScalar, hu, hl, hemp, if_true, if_false,
            Bool.false_eq_true, List.map_cons, ih, bucketOfList]
          rw [hsc.1, hsc.2]
          simp [initBucket]

/-- Claim C3: for every snapshot whose account emails are pairwise distinct
(email is the account identity key), `familyGauge` equals the claim's
description: each null `remainingFraction` of a family model is treated as 0,
the per-model values of each usable account are averaged into one scalar per
account, and the gauge is the unweighted average of those per-account
scalars. -/
theorem familyGauge_eq_spec (fam : String) (accs : List DashAccount)
    (hnd : (accs.map DashAccount.email).Nodup) :
    familyGauge fam accs = familyGaugeSpec fam accs := by
  have hd := familyDict_eq_dictSpec fam accs hnd
  have hmap := dictSpec_map_scalar fam accs
  unfold familyGauge familyGaugeSpec
  rw [hd, ← hmap, foldl_sum_div]
  cases hds : dictSpec fam accs with
  | nil => simp
  | cons x xs => simp

/-- The account of claim C3's concrete example: family models
`{m1: 0.5, m2: null}`. -/
def gaugeWitnessAccount : DashAccount :=
  { email := "a@x.co", status := "ok",
    limits := some
      [("claude-m1", some { remainingFraction := some (1/2), resetTime := none }),
       ("claude-m2", some { remainingFraction := none, resetTime := none })] }

/-- Witness for claim C3: one account with claude models
`{claude-m1: 0.5, claude-m2: null}` has a nodup snapshot, the gauge agrees
with the specification form, and its value is 0.25 (the null counted as 0). -/
theorem familyGauge_witness :
    ([gaugeWitnessAccount].map DashAccount.email).Nodup
    ∧ familyGauge "claude" [gaugeWitnessAccount] = familyGaugeSpec "claude" [gaugeWitnessAccount]
    ∧ familyGauge "claude" [gaugeWitnessAccount] = some (1/4) := by
  refine ⟨by simp, familyGauge_eq_spec "claude" [gaugeWitnessAccount] (by simp), ?_⟩
  have h1 : getModelFamily "claude-m1" = "claude" := by decide
  have h2 : getModelFamily "claude-m2" = "claude" := by decide
  have hdict : familyDict "claude" [gaugeWitnessAccount] =
      [("a@x.co", { sum := 1/2, count := 2, soonestReset := none })] := by
    simp [familyDict, dictStep, gaugeWitnessAccount, usable, accountFamilyFold, bumpDict,
      bucketAdd, initBucket, coerceFraction, h1, h2]
  simp only [familyGauge, hdict, List.isEmpty_cons, List.foldl_cons, List.foldl_nil,
    List.length_cons, List.length_nil]
  norm_num

/-- One entry of the dashboard's `allResets` array: an absolute reset
timestamp and the model id it belongs to. -/
structure ResetEntry where
  time : ℤ
  model : String
deriving DecidableEq

/-- The `allResets` entries contributed by one account's limits mapping:
null limit objects are skipped, and an entry is pushed exactly when
`resetTime` is set and the null-coerced fraction is exactly 0
(`if (resetTime && fraction === 0)` after `fraction = null ? 0`). -/
def accountResets (ls : List (String × Option QuotaInfo)) : List ResetEntry :=
  ls.filterMap (fun p =>
    match p.2 with
    | none => none
    | some lim =>
      match lim.resetTime with
      | none => none
      | some t =>
        if coerceFraction lim.remainingFraction = 0 then some { time := t, model := p.1 }
        else none)

/-- The `allResets` entries of one account: unusable accounts and accounts
without a limits mapping contribute nothing (same guards as `dictStep`). -/
def accountResetList (a : DashAccount) : List ResetEntry :=
  if usable a then
    match a.limits with
    | none => []
    | some ls => accountResets ls
  else []

/-- The dashboard's `allResets` array after the outer `accounts.forEach`
loop, in push order. -/
def allResets : List DashAccount → List ResetEntry
  | [] => []
  | a :: rest => accountResetList a ++ allResets rest

/-- Loop body of the `nextReset` selection:
`if (r.time > Date.now() && (!nextReset || r.time < nextReset.time)) nextReset = r`. -/
def resetStep (now : ℤ) (acc : Option ResetEntry) (r : ResetEntry) : Option ResetEntry :=
  if now < r.time then
    match acc with
    | none => some r
    | some c => if r.time < c.time then some r else some c
  else acc

/-- The dashboard's next-global-reset computation: fold the `nextReset`
selection over `allResets`. -/
def nextGlobalReset (now : ℤ) (accs : List DashAccount) : Option ResetEntry :=
  (allResets accs).foldl (resetStep now) none

/-- The first entry of a list attaining the minimal `time` (ties go to the
earlier entry): the specification form of the `nextReset` selection. -/
def firstMinTime : List ResetEntry → Option ResetEntry
  | [] => none
  | r :: rs =>
    match firstMinTime rs with
    | none => some r
    | some c => if c.time < r.time then some c else some r

/-- Merge of a running best candidate with the best of the remaining list
(earlier candidate wins ties). -/
def mergeNext : Option ResetEntry → Option ResetEntry → Option ResetEntry
  | none, o => o
  | some c, none => some c
  | some c, some d => if d.time < c.time then some d else some c

theorem foldl_resetStep (now : ℤ) (l : List ResetEntry) :
    ∀ acc, l.foldl (resetStep now) acc =
      mergeNext acc (firstMinTime (l.filter (fun r => decide (now < r.time)))) := by
  induction l with
  | nil =>
    intro acc
    cases acc <;> simp [mergeNext, firstMinTime]
  | cons r rs ih =>
    intro acc
    simp only [List.foldl_cons, List.filter_cons]
    by_cases hr : now < r.time
    · rw [if_pos (show (decide (now < r.time)) = true by simpa using hr)]
      rw [ih (resetStep now acc r)]
      cases acc with
      | none =>
        cases hF : firstMinTime (rs.filter (fun r => decide (now < r.time))) with
        | none => simp [resetStep, hr, mergeNext, firstMinTime, hF]
        | some c =>
          simp only [resetStep, hr, if_true, firstMinTime, hF]
          simp [mergeNext]
      | some a =>
        cases hF : firstMinTime (rs.filter (fun r => decide (now < r.time))) with
        | none =>
          simp only [resetStep, hr, if_true, firstMinTime, hF]
          split_ifs with h1 <;> simp [mergeNext, h1]
        | some c =>
          simp only [resetStep, hr, if_true, firstMinTime, hF]
          by_cases h1 : r.time < a.time
          · by_cases h2 : c.time < r.time
            · have h3 : c.time < a.time := lt_trans h2 h1
              simp [mergeNext, h1, h2, h3]
            · simp [mergeNext, h1, h2]
          · by_cases h2 : c.time < r.time
            · simp [mergeNext, h1, h2]
            · have h3 : ¬ c.time < a.time := by omega
              simp [mergeNext, h1, h2, h3]
    · rw [if_neg (show ¬ (decide (now < r.time)) = true by simpa using hr),
        show resetStep now acc r = acc from if_neg hr]
      exact ih acc

theorem firstMinTime_none_iff (l : List ResetEntry) : firstMinTime l = none ↔ l = [] := by
  cases l with
  | nil => simp [firstMinTime]
  | cons r rs =>
    cases hF : firstMinTime rs with
    | none => simp [firstMinTime, hF]
    | some c =>
      simp only [firstMinTime, hF]
      split_ifs <;> simp

theorem firstMinTime_mem_min (l : List ResetEntry) (c : ResetEntry)
    (h : firstMinTime l = some c) : c ∈ l ∧ ∀ d ∈ l, c.time ≤ d.time := by
  induction l generalizing c with
  | nil => simp [firstMinTime] at h
  | cons r rs ih =>
    cases hF : firstMinTime rs with
    | none =>
      simp only [firstMinTime, hF] at h
      cases h
      have hnil : rs = [] := (firstMinTime_none_iff rs).mp hF
      subst hnil
      simp
    | some b =>
      simp only [firstMinTime, hF] at h
      obtain ⟨hb1, hb2⟩ := ih b hF
      by_cases hlt : b.time < r.time
      · rw [if_pos hlt] at h
        cases h
        refine ⟨List.mem_cons_of_mem r hb1, ?_⟩
        intro d hd
        rcases List.mem_cons.mp hd with h | h
        · subst h
          omega
        · exact hb2 d h
      · rw [if_neg hlt] at h
        cases h
        refine ⟨List.mem_cons_self r rs, ?_⟩
        intro d hd
        rcases List.mem_cons.mp hd with h | h
        · subst h
          exact le_refl _
        · exact le_trans (not_lt.mp hlt) (hb2 d h)

/-- Claim C2 (amended): among usable accounts (status ok or rate-limited, with
a limits mapping), a quota is a next-reset candidate exactly when its
`resetTime` is set, strictly later than the current instant, and its
null-coerced `remainingFraction` is exactly 0 — so a null fraction IS a
candidate, being coerced to 0 before the test. `nextGlobalReset` returns the
candidate with the smallest reset time, ties resolved in favor of the earlier
candidate in input iteration order (`firstMinTime`), and it returns a
candidate iff one exists. -/
theorem nextGlobalReset_spec (now : ℤ) (accs : List DashAccount) :
    nextGlobalReset now accs =
      firstMinTime ((allResets accs).filter (fun r => decide (now < r.time)))
    ∧ (nextGlobalReset now accs = none ↔ ∀ r ∈ allResets accs, ¬ now < r.time)
    ∧ ∀ c, nextGlobalReset now accs = some c →
        c ∈ allResets accs ∧ now < c.time
        ∧ ∀ d ∈ allResets accs, now < d.time → c.time ≤ d.time := by
  have he : nextGlobalReset now accs =
      firstMinTime ((allResets accs).filter (fun r => decide (now < r.time))) := by
    unfold nextGlobalReset
    rw [foldl_resetStep]
    rfl
  refine ⟨he, ?_, ?_⟩
  · rw [he, firstMinTime_none_iff]
    constructor
    · intro hnil r hr hlt
      have hmem : r ∈ (allResets accs).filter (fun r => decide (now < r.time)) :=
        List.mem_filter.mpr ⟨hr, by simpa using hlt⟩
      rw [hnil] at hmem
      simp at hmem
    · intro hall
      rw [List.filter_eq_nil_iff]
      intro r hr
      simpa using hall r hr
  · intro c hc
    rw [he] at hc
    obtain ⟨hmem, hmin⟩ := firstMinTime_mem_min _ c hc
    have hmem2 := List.mem_filter.mp hmem
    refine ⟨hmem2.1, by simpa using hmem2.2, ?_⟩
    intro d hd hdt
    exact hmin d (List.mem_filter.mpr ⟨hd, by simpa using hdt⟩)

/-- Witness account for claim C2: two exhausted claude quotas resetting at
T+10 and T+5 (current instant T = 100). -/
def resetWitnessAccount : DashAccount :=
  { email := "n@x.co", status := "ok",
    limits := some
      [("claude-a", some { remainingFraction := some 0, resetTime := some 110 }),
       ("claude-b", some { remainingFraction := some 0, resetTime := some 105 })] }

/-- Witness for claim C2: of the two exhausted quotas resetting at 110 and
105, `nextGlobalReset` at instant 100 returns the one resetting at 105, and
that candidate is a member of the candidate list with a future reset time. -/
theorem nextGlobalReset_witness :
    nextGlobalReset 100 [resetWitnessAccount] = some { time := 105, model := "claude-b" }
    ∧ ({ time := 105, model := "claude-b" } : ResetEntry) ∈ allResets [resetWitnessAccount]
    ∧ (100 : ℤ) < 105 := by
  have hv : nextGlobalReset 100 [resetWitnessAccount] =
      some { time := 105, model := "claude-b" } := by rfl
  refine ⟨hv, ((nextGlobalReset_spec 100 [resetWitnessAccount]).2.2 _ hv).1, by decide⟩

/-- The candidate entries claim C2 describes for one limits mapping: the
`remainingFraction` must be literally 0 — a null fraction is NOT a candidate.
Modelled from the claim's words, to be compared with `accountResets`. -/
def claimedAccountResets (ls : List (String × Option QuotaInfo)) : List ResetEntry :=
  ls.filterMap (fun p =>
    match p.2 with
    | none => none
    | some lim =>
      match lim.resetTime with
      | none => none
      | some t =>
        if lim.remainingFraction = some 0 then some { time := t, model := p.1 }
        else none)

/-- Per-account candidate list under claim C2's reading. -/
def claimedResetList (a : DashAccount) : List ResetEntry :=
  if usable a then
    match a.limits with
    | none => []
    | some ls => claimedAccountResets ls
  else []

/-- All candidates under claim C2's reading. -/
def allClaimedResets : List DashAccount → List ResetEntry
  | [] => []
  | a :: rest => claimedResetList a ++ allClaimedResets rest

/-- The next-global-reset computation as claim C2 words it (null fractions
excluded). -/
def claimedNextGlobalReset (now : ℤ) (accs : List DashAccount) : Option ResetEntry :=
  firstMinTime ((allClaimedResets accs).filter (fun r => decide (now < r.time)))

/-- The account of the counterexample to claim C2: a single quota with a null
fraction and a future reset time. -/
def c2CexAccount : DashAccount :=
  { email := "c@x.co", status := "ok",
    limits := some [("claude-m", some { remainingFraction := none, resetTime := some 110 })] }

/-- Counterexample to claim C2 as stated: the account's only quota has a NULL
`remainingFraction` and reset time 110; the claim says a null fraction is not
a candidate (so no next reset exists), but the code coerces null to 0 first
and returns that quota as the next global reset. -/
theorem nextGlobalReset_null_cex :
    c2CexAccount.limits =
      some [("claude-m", some { remainingFraction := none, resetTime := some 110 })]
    ∧ nextGlobalReset 100 [c2CexAccount] = some { time := 110, model := "claude-m" }
    ∧ claimedNextGlobalReset 100 [c2CexAccount] = none := by
  refine ⟨rfl, ?_, ?_⟩ <;> rfl

theorem allResets_append (l1 l2 : List DashAccount) :
    allResets (l1 ++ l2) = allResets l1 ++ allResets l2 := by
  induction l1 with
  | nil => simp [allResets]
  | cons a rest ih => simp [allResets, ih]

/-- Claim C9: an account whose status is neither ok nor rate-limited, or
whose limits mapping is absent, contributes nothing to the family gauges, the
per-family soonest resets, or the next-global-reset candidates: removing it
from any position of the snapshot changes none of these aggregates. -/
theorem unusableAccount_no_effect (a : DashAccount)
    (h : usable a = false ∨ a.limits = none) (fam : String) (now : ℤ)
    (pre post : List DashAccount) :
    familyGauge fam (pre ++ a :: post) = familyGauge fam (pre ++ post)
    ∧ familySoonestReset fam (pre ++ a :: post) = familySoonestReset fam (pre ++ post)
    ∧ allResets (pre ++ a :: post) = allResets (pre ++ post)
    ∧ nextGlobalReset now (pre ++ a :: post) = nextGlobalReset now (pre ++ post) := by
  have hstep : ∀ d, dictStep fam d a = d := by
    intro d
    rcases h with h | h
    · simp [dictStep, h]
    · simp [dictStep, h]
  have hdict : familyDict fam (pre ++ a :: post) = familyDict fam (pre ++ post) := by
    unfold familyDict
    rw [List.foldl_append, List.foldl_append, List.foldl_cons, hstep]
  have hres : allResets (pre ++ a :: post) = allResets (pre ++ post) := by
    rw [allResets_append, allResets_append]
    have hempty : accountResetList a = [] := by
      rcases h with h | h
      · simp [accountResetList, h]
      · simp [accountResetList, h]
    simp [allResets, hempty]
  refine ⟨?_, ?_, hres, ?_⟩
  · simp only [familyGauge, hdict]
  · simp only [familySoonestReset, hdict]
  · simp only [nextGlobalReset, hres]

/-- An account with status "invalid" holding an exhausted quota with a future
reset: unusable, so it must not affect any aggregate. -/
def unusableWitnessAccount : DashAccount :=
  { email := "bad@x.co", status := "invalid",
    limits := some [("claude-m", some { remainingFraction := some 0, resetTime := some 50 })] }

/-- Witness for claim C9: the invalid-status account affects neither the
claude gauge, nor the claude soonest reset, nor the reset candidates, nor the
next global reset. -/
theorem unusableAccount_witness :
    familyGauge "claude" [unusableWitnessAccount] = familyGauge "claude" []
    ∧ familySoonestReset "claude" [unusableWitnessAccount] = familySoonestReset "claude" []
    ∧ allResets [unusableWitnessAccount] = allResets []
    ∧ nextGlobalReset 0 [unusableWitnessAccount] = nextGlobalReset 0 [] := by
  have h := unusableAccount_no_effect unusableWitnessAccount (Or.inl (by decide)) "claude" 0 [] []
  simpa using h

/-- The `counts` object of the health snapshot. -/
structure HealthCounts where
  total : ℕ
  available : ℕ
  rateLimited : ℕ
  invalid : ℕ
deriving DecidableEq

/-- One account of the health snapshot (`/health`). -/
structure HealthAccount where
  email : String
  status : String
  lastUsed : Option ℤ
  models : List (String × Option QuotaInfo)
  error : Option String
deriving DecidableEq

/-- The health snapshot returned by `API.getHealth`. -/
structure HealthSnap where
  counts : HealthCounts
  accounts : List HealthAccount
  latencyMs : ℤ
deriving DecidableEq

/-- The limits snapshot returned by `API.getAccountLimits`. -/
structure LimitsSnap where
  models : List String
  accounts : List DashAccount
deriving DecidableEq

/-- The dashboard's mutable `state` object. The two timer handles and the
search debounce handle are omitted: they hold no data the claims concern. -/
structure AppState where
  health : Option HealthSnap
  accountLimits : Option LimitsSnap
  lastUpdated : Option ℤ
  errorBanner : Option String
  isLoading : Bool
  filter : String
  searchQuery : String
  expandedAccounts : List String
deriving DecidableEq

/-- The initial dashboard state (`health: null, accountLimits: null,
lastUpdated: null, filter: 'all', searchQuery: '', expandedAccounts: new Set(),
isLoading: false`, error banner hidden). -/
def initState : AppState :=
  { health := none, accountLimits := none, lastUpdated := none, errorBanner := none,
    isLoading := false, filter := "all", searchQuery := "", expandedAccounts := [] }

/-- Result of `Promise.all` over the two fetches: ok when both are ok,
otherwise the error of a failed fetch (left-biased when both fail). -/
def fetchOutcome (h : Except String HealthSnap) (l : Except String LimitsSnap) :
    Except String (HealthSnap × LimitsSnap) :=
  match h, l with
  | .ok hv, .ok lv => .ok (hv, lv)
  | .error e, _ => .error e
  | .ok _, .error e => .error e

/-- The start of `refresh` once past the guard:
`Render.loading(true); Render.error(null)`. -/
def beginLoad (s : AppState) : AppState :=
  { s with isLoading := true, errorBanner := none }

/-- The rest of `refresh` after the two awaited fetches settle at instant
`now`: on success both snapshot halves and `lastUpdated` are replaced and all
components re-rendered; on failure only the error banner is set
(`'Failed to connect: ' + error.message`); `finally { Render.loading(false) }`
in both branches. -/
def finishLoad (now : ℤ) (s : AppState) (h : Except String HealthSnap)
    (l : Except String LimitsSnap) : AppState :=
  match fetchOutcome h l with
  | .ok (hv, lv) =>
    { s with
        health := some hv
        accountLimits := some lv
        lastUpdated := some now
        isLoading := false }
  | .error msg =>
    { s with errorBanner := some ("Failed to connect: " ++ msg), isLoading := false }

/-- One whole `refresh` call as a state transition: the guard
`if (state.isLoading) return;` first, then begin and finish. -/
def refreshStep (now : ℤ) (s : AppState) (h : Except String HealthSnap)
    (l : Except String LimitsSnap) : AppState :=
  if s.isLoading then s else finishLoad now (beginLoad s) h l

/-- Claim C4: when a refresh actually runs (the state was not already
loading) and the fetch pair fails, the stored snapshot halves and
`lastUpdated` are unchanged — no partial snapshot is ever stored — and the
error banner carries the failure message; both snapshot halves (and
`lastUpdated`) are replaced exactly when both fetches succeed; and
`fetchOutcome` is an error whenever either fetch fails. -/
theorem refresh_failure_atomic (now : ℤ) (s : AppState) (h : Except String HealthSnap)
    (l : Except String LimitsSnap) (hld : s.isLoading = false) :
    (∀ msg, fetchOutcome h l = Except.error msg →
      (refreshStep now s h l).health = s.health
      ∧ (refreshStep now s h l).accountLimits = s.accountLimits
      ∧ (refreshStep now s h l).lastUpdated = s.lastUpdated
      ∧ (refreshStep now s h l).errorBanner = some ("Failed to connect: " ++ msg))
    ∧ (∀ hv lv, h = Except.ok hv → l = Except.ok lv →
      (refreshStep now s h l).health = some hv
      ∧ (refreshStep now s h l).accountLimits = some lv
      ∧ (refreshStep now s h l).lastUpdated = some now)
    ∧ (∀ e, h = Except.error e → fetchOutcome h l = Except.error e)
    ∧ (∀ hv e, h = Except.ok hv → l = Except.error e → fetchOutcome h l = Except.error e) := by
  refine ⟨?_, ?_, ?_, ?_⟩
  · intro msg hmsg
    simp [refreshStep, hld, finishLoad, beginLoad, hmsg]
  · intro hv lv hh hl
    subst hh
    subst hl
    simp [refreshStep, hld, finishLoad, beginLoad, fetchOutcome]
  · intro e hh
    subst hh
    cases l <;> simp [fetchOutcome]
  · intro hv e hh hl
    subst hh
    subst hl
    simp [fetchOutcome]

/-- Witness for claim C4: from the initial state, a refresh whose health
fetch fails with "boom" (limits fetch fine) leaves both snapshot halves and
`lastUpdated` untouched and shows the banner message. -/
theorem refresh_failure_witness :
    (refreshStep 0 initState (Except.error "boom")
        (Except.ok { models := [], accounts := [] })).health = initState.health
    ∧ (refreshStep 0 initState (Except.error "boom")
        (Except.ok { models := [], accounts := [] })).accountLimits = initState.accountLimits
    ∧ (refreshStep 0 initState (Except.error "boom")
        (Except.ok { models := [], accounts := [] })).lastUpdated = initState.lastUpdated
    ∧ (refreshStep 0 initState (Except.error "boom")
        (Except.ok { models := [], accounts := [] })).errorBanner
        = some "Failed to connect: boom" := by
  have h := (refresh_failure_atomic 0 initState (Except.error "boom")
    (Except.ok { models := [], accounts := [] }) rfl).1 "boom" rfl
  exact ⟨h.1, h.2.1, h.2.2.1, h.2.2.2.trans (by rfl)⟩

/-- Claim C8: a refresh — whether dropped by the loading guard, failed, or
successful — never modifies the view-identity fields: the family filter, the
search query and the set of expanded accounts are exactly preserved by
`refreshStep`. -/
theorem refresh_preserves_view_identity (now : ℤ) (s : AppState)
    (h : Except String HealthSnap) (l : Except String LimitsSnap) :
    (refreshStep now s h l).filter = s.filter
    ∧ (refreshStep now s h l).searchQuery = s.searchQuery
    ∧ (refreshStep now s h l).expandedAccounts = s.expandedAccounts := by
  unfold refreshStep finishLoad beginLoad
  cases hld : s.isLoading with
  | true => simp
  | false =>
    simp only [Bool.false_eq_true, if_false]
    cases fetchOutcome h l with
    | ok v =>
      obtain ⟨hv, lv⟩ := v
      simp
    | error msg => simp

/-- External events driving the refresh machinery: a refresh trigger (manual
click, auto-refresh timer tick, or error-banner retry), or the settling of
the in-flight fetch pair at instant `now` with the two fetch results. -/
inductive DashEvent where
  | trigger
  | complete (now : ℤ) (h : Except String HealthSnap) (l : Except String LimitsSnap)

/-- The dashboard state instrumented with the number of in-flight fetch
pairs. -/
structure Sim where
  app : AppState
  inflight : ℕ
deriving DecidableEq

/-- One event step: a trigger while loading is dropped by the
`if (state.isLoading) return;` guard and starts no fetch; a trigger while not
loading marks the state loading and starts exactly one fetch pair; a
completion (possible only while loading) finishes the refresh. -/
def simStep (s : Sim) : DashEvent → Sim
  | .trigger =>
    if s.app.isLoading then s
    else { app := beginLoad s.app, inflight := s.inflight + 1 }
  | .complete now h l =>
    if s.app.isLoading then { app := finishLoad now s.app h l, inflight := s.inflight - 1 }
    else s

/-- Run of the dashboard from the initial state over an event list. -/
def runSim (evs : List DashEvent) : Sim :=
  evs.foldl simStep { app := initState, inflight := 0 }

theorem simStep_invariant (s : Sim) (e : DashEvent)
    (h : s.inflight = (if s.app.isLoading then 1 else 0)) :
    (simStep s e).inflight = (if (simStep s e).app.isLoading then 1 else 0) := by
  cases e with
  | trigger =>
    by_cases hld : s.app.isLoading
    · simp [simStep, hld, h]
    · simp [simStep, hld, beginLoad, h]
  | complete now hh ll =>
    by_cases hld : s.app.isLoading
    · simp only [simStep, hld, if_true]
      unfold finishLoad
      cases fetchOutcome hh ll with
      | ok v =>
        obtain ⟨hv, lv⟩ := v
        simp [h, hld]
      | error msg => simp [h, hld]
    · simp [simStep, hld, h]

theorem runSim_invariant (evs : List DashEvent) :
    (runSim evs).inflight = (if (runSim evs).app.isLoading then 1 else 0) := by
  unfold runSim
  suffices h : ∀ s : Sim, s.inflight = (if s.app.isLoading then 1 else 0) →
      (evs.foldl simStep s).inflight = (if (evs.foldl simStep s).app.isLoading then 1 else 0) by
    exact h _ (by simp [initState])
  induction evs with
  | nil => exact fun s hs => hs
  | cons e rest ih =>
    intro s hs
    simp only [List.foldl_cons]
    exact ih _ (simStep_invariant s e hs)

/-- Claim C5: along every event sequence from the initial state at most one
fetch pair is ever in flight, and a trigger received while the state is
loading is a complete no-op — the state is unchanged and no fetch starts. -/
theorem single_inflight_refresh :
    (∀ evs : List DashEvent, (runSim evs).inflight ≤ 1)
    ∧ (∀ (app : AppState) (n : ℕ),
        simStep { app := { app with isLoading := true }, inflight := n } DashEvent.trigger
          = { app := { app with isLoading := true }, inflight := n }) := by
  constructor
  · intro evs
    rw [runSim_invariant evs]
    split_ifs <;> omega
  · intro app n
    simp [simStep]
